import Mathlib

/-!
Shallow embedding of `ocr_app.py` (a Streamlit front end for the Mistral OCR
API) together with theorems about the behavior of its helper functions.

Strings are modelled as `List Char`.  The regex substitution performed by
`replace_images_in_markdown` (Python:
`re.compile(rf"!\[\s*{re.escape(id)}\s*\]\(\s*{re.escape(id)}\s*\)").sub(repl, s)`)
is modelled by a matcher that is faithful to Python's backtracking
semantics: each `\s*` group greedily consumes whitespace and backtracks one
character at a time, and `sub` rewrites the leftmost non-overlapping
matches from left to right.  The replacement text `f"![{id}]({uri})"` is a
Python replacement template: `sub` first parses it — raising `re.error`
eagerly for a bad escape such as a backslash followed by a letter, even
when the pattern never matches — and then expands group references such as
a backslash-g-0 reference to the text of each match.  `subPH` models this
with `parseTemplate` (the template parser, including its error cases) and
`expandTemplate`; the substitution is therefore `Except`-valued, and the
error propagates through `get_combined_markdown_optimized` and the `try`
of `get_ocr_result` exactly as the Python exception does.
-/

/-- Whitespace characters matched by Python's `\s` in a `str` pattern
(ASCII whitespace, the C1 separators, and the Unicode space characters). -/
def pySpaceChars : List Char :=
  [' ', '\t', '\n', '\x0b', '\x0c', '\r',
   '\x1c', '\x1d', '\x1e', '\x1f', '\x85', '\xa0',
   ' ', ' ', ' ', ' ', ' ', ' ', ' ',
   ' ', ' ', ' ', ' ', ' ', ' ', ' ',
   ' ', ' ', '　']

/-- `\s` character test. -/
def isPySpace (c : Char) : Bool := pySpaceChars.contains c

/-- Length of the maximal run of whitespace at the head of a string. -/
def wsRun : List Char → Nat
  | [] => 0
  | c :: t => if isPySpace c then wsRun t + 1 else 0

/-- `[n, n-1, ..., 0]`: the candidate consumption counts for a greedy
`\s*` group, in the order a backtracking engine tries them. -/
def descList : Nat → List Nat
  | 0 => [0]
  | n + 1 => (n + 1) :: descList n

/-- First success of `f` along a candidate list (backtracking search). -/
def firstSome (f : Nat → Option Nat) : List Nat → Option Nat
  | [] => none
  | k :: t =>
    match f k with
    | some r => some r
    | none => firstSome f t

/-- `listStartsWith p s` : `p` is a prefix of `s` (Python `startswith`). -/
def listStartsWith : List Char → List Char → Bool
  | [], _ => true
  | _ :: _, [] => false
  | a :: as, b :: bs => a = b && listStartsWith as bs

/-- `containsSub p s` : `p` occurs as a contiguous substring of `s`. -/
def containsSub (pat : List Char) : List Char → Bool
  | [] => listStartsWith pat []
  | c :: rest => listStartsWith pat (c :: rest) || containsSub pat rest

/-- A character that can never collide with the structural characters of
a placeholder and never starts a replacement-template escape: not one of
`!`, `[`, `]`, `(`, `)`, not a backslash, and not whitespace.  Real OCR
ids (`img-0.jpeg`, ...) and base64 data URIs consist of such characters
only. -/
def benignChar (c : Char) : Bool :=
  !(c = '!' || c = '[' || c = ']' || c = '(' || c = ')' || c = '\\') &&
    !(isPySpace c)

/-- All characters of the string are benign. -/
def benign (l : List Char) : Bool := l.all benignChar

/-- Matcher for the tail of the placeholder pattern: `\s*\)`.
Returns the number of characters consumed. -/
def phClose (s8 : List Char) : Option Nat :=
  firstSome
    (fun k4 =>
      match s8.drop k4 with
      | c :: _ => if c = ')' then some (k4 + 1) else none
      | [] => none)
    (descList (wsRun s8))

/-- Matcher for `\s*{id}\s*\)` (the link-target part of the pattern). -/
def phAfterOpen (id s6 : List Char) : Option Nat :=
  firstSome
    (fun k3 =>
      if listStartsWith id (s6.drop k3) then
        (phClose ((s6.drop k3).drop id.length)).map (fun r => k3 + id.length + r)
      else none)
    (descList (wsRun s6))

/-- Matcher for `\s*\]\(\s*{id}\s*\)` (everything after the alt text). -/
def phAfterAlt (id s4 : List Char) : Option Nat :=
  firstSome
    (fun k2 =>
      match s4.drop k2 with
      | c1 :: c2 :: s6 =>
        if c1 = ']' then
          if c2 = '(' then (phAfterOpen id s6).map (fun r => k2 + 2 + r)
          else none
        else none
      | _ => none)
    (descList (wsRun s4))

/-- Matcher for `\s*{id}\s*\]\(\s*{id}\s*\)` (everything after `![`). -/
def phAlt (id s2 : List Char) : Option Nat :=
  firstSome
    (fun k1 =>
      if listStartsWith id (s2.drop k1) then
        (phAfterAlt id ((s2.drop k1).drop id.length)).map
          (fun r => k1 + id.length + r)
      else none)
    (descList (wsRun s2))

/-- `matchPH id s` : does the placeholder regex
`!\[\s*{id}\s*\]\(\s*{id}\s*\)` match at the start of `s`?  On success
returns the length of the match chosen by Python's backtracking engine. -/
def matchPH (id s : List Char) : Option Nat :=
  match s with
  | c1 :: c2 :: s2 =>
    if c1 = '!' then
      if c2 = '[' then (phAlt id s2).map (fun r => 2 + r) else none
    else none
  | _ => none

/-- The replacement text `f"![{img_id}]({base64_data_uri})"`. -/
def mkRepl (id uri : List Char) : List Char :=
  '!' :: '[' :: (id ++ (']' :: '(' :: (uri ++ [')'])))

/-- `hasPH id s` : the placeholder pattern for `id` matches somewhere in `s`. -/
def hasPH (id : List Char) : List Char → Bool
  | [] => false
  | c :: rest => (matchPH id (c :: rest)).isSome || hasPH id rest

/-- One validity certificate for a placeholder match of length `n` at the
start of `s`: the first `n` characters decompose as
`![` ws `id` ws `](` ws `id` ws `)`. -/
def wsOnly (w : List Char) : Prop := ∀ c ∈ w, isPySpace c = true

def validPH (id s : List Char) (n : Nat) : Prop :=
  ∃ w1 w2 w3 w4 : List Char,
    wsOnly w1 ∧ wsOnly w2 ∧ wsOnly w3 ∧ wsOnly w4 ∧
    n = w1.length + w2.length + w3.length + w4.length + 2 * id.length + 5 ∧
    n ≤ s.length ∧
    s.take n =
      '!' :: '[' ::
        (w1 ++ (id ++ (w2 ++ (']' :: '(' ::
          (w3 ++ (id ++ (w4 ++ [')'])))))))

/-- One item of a parsed replacement template: a literal character or a
reference to a capture group (for these patterns only group 0, the whole
match, can occur). -/
inductive TItem where
  | lit (c : Char)
  | group (n : Nat)
deriving DecidableEq

/-- Octal digit test (Python `OCTDIGITS`). -/
def isOctDigitCh (c : Char) : Bool := '0' ≤ c && c ≤ '7'

/-- Value of a decimal digit character. -/
def digitVal (c : Char) : Nat := c.toNat - '0'.toNat

/-- Decimal value of a digit run. -/
def natOfDigits (l : List Char) : Nat :=
  l.foldl (fun a c => a * 10 + digitVal c) 0

/-- ASCII identifier test (the fragment of Python `str.isidentifier`
relevant to group names in these templates). -/
def isIdentName (l : List Char) : Bool :=
  match l with
  | [] => false
  | c :: t =>
    (c.isAlpha || c = '_') && t.all (fun d => d.isAlpha || d.isDigit || d = '_')

/-- Read a group name up to the closing `>`; `none` when the `>` is
missing. -/
def spanUntilGt : List Char → Option (List Char × List Char)
  | [] => none
  | c :: t =>
    if c = '>' then some ([], t)
    else
      match spanUntilGt t with
      | none => none
      | some (nm, r) => some (c :: nm, r)

/-- The escape branch of Python's replacement-template parser: called
after a backslash, with `k` the parser for the characters following the
escape.  Faithful to CPython `parse_template`: a lone trailing backslash,
a backslash before an ASCII letter outside `a b f n r t v`, a malformed
`g<...>` reference, a group index above `ngroups` and an out-of-range
octal escape raise `re.error` (modelled as the error message); `g<name>`,
single-digit and two-digit group references, octal escapes and the
control-character escapes expand as in CPython; a backslash before any
other character is kept as the two literal characters.  (Integer group
names in forms other than plain digit runs are not modelled.) -/
def parseEsc (ngroups : Nat) (k : List Char → Except (List Char) (List TItem)) :
    List Char → Except (List Char) (List TItem)
  | [] => .error "bad escape (end of pattern)".toList
  | e :: rest2 =>
    if e = 'g' then
      match rest2 with
      | '<' :: rest3 =>
        match spanUntilGt rest3 with
        | none => .error "missing >, unterminated name".toList
        | some (nm, rest4) =>
          if nm = [] then .error "missing group name".toList
          else if nm.all Char.isDigit then
            if ngroups < natOfDigits nm then
              .error "invalid group reference".toList
            else (k rest4).map (fun items => .group (natOfDigits nm) :: items)
          else if isIdentName nm then .error "unknown group name".toList
          else .error "bad character in group name".toList
      | _ => .error "missing <".toList
    else if e = '0' then
      match rest2 with
      | d1 :: rest3 =>
        if isOctDigitCh d1 then
          match rest3 with
          | d2 :: rest4 =>
            if isOctDigitCh d2 then
              (k rest4).map
                (fun items =>
                  .lit (Char.ofNat (digitVal d1 * 8 + digitVal d2)) :: items)
            else
              (k rest3).map
                (fun items => .lit (Char.ofNat (digitVal d1)) :: items)
          | [] =>
            (k rest3).map
              (fun items => .lit (Char.ofNat (digitVal d1)) :: items)
        else (k rest2).map (fun items => .lit (Char.ofNat 0) :: items)
      | [] => (k rest2).map (fun items => .lit (Char.ofNat 0) :: items)
    else if e.isDigit then
      match rest2 with
      | d2 :: rest3 =>
        if d2.isDigit then
          match rest3 with
          | d3 :: rest4 =>
            if isOctDigitCh e && isOctDigitCh d2 && isOctDigitCh d3 then
              if 255 < digitVal e * 64 + digitVal d2 * 8 + digitVal d3 then
                .error "octal escape value outside of range 0-0o377".toList
              else
                (k rest4).map
                  (fun items =>
                    .lit (Char.ofNat
                      (digitVal e * 64 + digitVal d2 * 8 + digitVal d3)) :: items)
            else
              if ngroups < digitVal e * 10 + digitVal d2 then
                .error "invalid group reference".toList
              else
                (k rest3).map
                  (fun items => .group (digitVal e * 10 + digitVal d2) :: items)
          | [] =>
            if ngroups < digitVal e * 10 + digitVal d2 then
              .error "invalid group reference".toList
            else
              (k rest3).map
                (fun items => .group (digitVal e * 10 + digitVal d2) :: items)
        else
          if ngroups < digitVal e then
            .error "invalid group reference".toList
          else (k rest2).map (fun items => .group (digitVal e) :: items)
      | [] =>
        if ngroups < digitVal e then
          .error "invalid group reference".toList
        else (k rest2).map (fun items => .group (digitVal e) :: items)
    else if e = 'a' then (k rest2).map (fun items => .lit '\x07' :: items)
    else if e = 'b' then (k rest2).map (fun items => .lit '\x08' :: items)
    else if e = 'f' then (k rest2).map (fun items => .lit '\x0c' :: items)
    else if e = 'n' then (k rest2).map (fun items => .lit '\n' :: items)
    else if e = 'r' then (k rest2).map (fun items => .lit '\r' :: items)
    else if e = 't' then (k rest2).map (fun items => .lit '\t' :: items)
    else if e = 'v' then (k rest2).map (fun items => .lit '\x0b' :: items)
    else if e = '\\' then (k rest2).map (fun items => .lit '\\' :: items)
    else if e.isAlpha then .error "bad escape".toList
    else (k rest2).map (fun items => .lit '\\' :: .lit e :: items)

/-- Python's `re` replacement-template parser (`parse_template`) for a
pattern with `ngroups` capture groups, fuelled (each step consumes at
least one character, so `length` fuel suffices): the template parse —
including all its error cases — happens before any match is attempted. -/
def parseTemplateFuel (ngroups : Nat) :
    Nat → List Char → Except (List Char) (List TItem)
  | 0, _ => .ok []
  | _ + 1, [] => .ok []
  | fuel + 1, c :: rest =>
    if c = '\\' then parseEsc ngroups (parseTemplateFuel ngroups fuel) rest
    else (parseTemplateFuel ngroups fuel rest).map (fun items => .lit c :: items)

/-- Parse a replacement template (`re._parser.parse_template`). -/
def parseTemplate (ngroups : Nat) (repl : List Char) :
    Except (List Char) (List TItem) :=
  parseTemplateFuel ngroups repl.length repl

/-- Expand a parsed template against the text of one match: a group
reference yields the matched text (these patterns have no capture groups,
so only group 0, the whole match, is expressible). -/
def expandTemplate (matched : List Char) : List TItem → List Char
  | [] => []
  | .lit c :: t => c :: expandTemplate matched t
  | .group _ :: t => matched ++ expandTemplate matched t

/-- Fuelled left-to-right rewriting of all non-overlapping matches with a
parsed template: at each position try the pattern; on a match emit the
template expanded against the matched text and resume after the match,
otherwise keep one character. -/
def subPHRun (id : List Char) (items : List TItem) : Nat → List Char → List Char
  | 0, _ => []
  | fuel + 1, s =>
    match matchPH id s with
    | some n =>
      expandTemplate (s.take n) items ++ subPHRun id items fuel (s.drop n)
    | none =>
      match s with
      | [] => []
      | c :: rest => c :: subPHRun id items fuel rest

/-- `pattern.sub(repl, s)` for the placeholder pattern of `id` (which has
no capture groups, hence the group count 0): parse the replacement
template — `re.error` is raised here, even when nothing matches — then
rewrite the leftmost non-overlapping matches, expanding the template
against each match.  Every step consumes at least one character, so
`s.length` fuel suffices. -/
def subPH (id repl s : List Char) : Except (List Char) (List Char) :=
  match parseTemplate 0 repl with
  | .error e => .error e
  | .ok items => .ok (subPHRun id items s.length s)

/-- The special case of the rewriting loop for an escape-free template,
whose expansion inserts the replacement text literally; used to state the
behavior of `subPH` on backslash-free replacements. -/
def subLitFuel (id repl : List Char) : Nat → List Char → List Char
  | 0, _ => []
  | fuel + 1, s =>
    match matchPH id s with
    | some n => repl ++ subLitFuel id repl fuel (s.drop n)
    | none =>
      match s with
      | [] => []
      | c :: rest => c :: subLitFuel id repl fuel rest

/-- Literal-replacement substitution (equal to `subPH` whenever `repl`
contains no backslash). -/
def subLit (id repl s : List Char) : List Char :=
  subLitFuel id repl s.length s

/-- `replace_images_in_markdown(markdown_str, images_dict)` : iterate over
the dict entries in insertion order, rewriting all placeholder matches of
each id to `![id](uri)`; an `re.error` raised by `pattern.sub` aborts the
loop and propagates. -/
def replace_images_in_markdown (markdown_str : List Char) :
    List (List Char × List Char) → Except (List Char) (List Char)
  | [] => .ok markdown_str
  | e :: t =>
    match subPH e.1 (mkRepl e.1 e.2) markdown_str with
    | .error err => .error err
    | .ok md2 => replace_images_in_markdown md2 t

/-- One image of an OCR page: `img.id` and `img.image_base64`
(`none` models Python `None`; `some []` models the empty string). -/
structure OCRImage where
  id : List Char
  image_base64 : Option (List Char)
deriving DecidableEq

/-- One page of the OCR response.  `markdown` is `Option` because the
code guards with `page.markdown if ... and page.markdown else ""`;
`images` is `Option` because the code guards with `if page.images:`. -/
structure OCRPage where
  markdown : Option (List Char)
  images : Option (List OCRImage)
deriving DecidableEq

/-- The OCR response: an ordered list of pages. -/
structure OCRResponse where
  pages : List OCRPage
deriving DecidableEq

/-- Python truthiness of an optional string (`None` and `""` are falsy). -/
def truthy : Option (List Char) → Bool
  | none => false
  | some [] => false
  | some (_ :: _) => true

/-- The images of a page as a list (`if page.images:` skips a falsy
field, which yields the same dict as iterating over `[]`). -/
def imagesOf (p : OCRPage) : List OCRImage :=
  match p.images with
  | none => []
  | some l => l

/-- The (possibly absent) payload as a plain string. -/
def payloadOf (img : OCRImage) : List Char :=
  match img.image_base64 with
  | none => []
  | some b => b

def dataImagePfx : List Char := "data:image".toList

def pngB64Pfx : List Char := "data:image/png;base64,".toList

/-- Python dict assignment on an insertion-ordered association list:
an existing key keeps its position and gets the new value, a new key is
appended. -/
def dictInsert : List (List Char × List Char) → List Char → List Char →
    List (List Char × List Char)
  | [], k, v => [(k, v)]
  | (k', v') :: t, k, v =>
    if k' = k then (k, v) :: t else (k', v') :: dictInsert t k v

/-- Dict lookup. -/
def lookupId (k : List Char) : List (List Char × List Char) →
    Option (List Char)
  | [] => none
  | (k', v) :: t => if k' = k then some v else lookupId k t

/-- The body of the per-image loop in `get_combined_markdown_optimized`:
```
if img.image_base64 and not img.image_base64.startswith('data:image'):
    image_data[img.id] = f"data:image/png;base64,{img.image_base64}"
elif img.image_base64:
    image_data[img.id] = img.image_base64
```
-/
def addImage (m : List (List Char × List Char)) (img : OCRImage) :
    List (List Char × List Char) :=
  if truthy img.image_base64 && !listStartsWith dataImagePfx (payloadOf img) then
    dictInsert m img.id (pngB64Pfx ++ payloadOf img)
  else if truthy img.image_base64 then
    dictInsert m img.id (payloadOf img)
  else m

/-- The data URI produced for a truthy payload: passed through when it
already starts with `data:image`, wrapped as a PNG data URI otherwise. -/
def wrapUri (b : List Char) : List Char :=
  if listStartsWith dataImagePfx b then b else pngB64Pfx ++ b

/-- The `image_data` dict built for one page. -/
def imageData (p : OCRPage) : List (List Char × List Char) :=
  (imagesOf p).foldl addImage []

/-- `page.markdown if hasattr(page, 'markdown') and page.markdown else ""`. -/
def mdOf (p : OCRPage) : List Char :=
  match p.markdown with
  | none => []
  | some m => if m = [] then [] else m

/-- The per-page result appended to `markdowns` (or the `re.error`
propagating out of `replace_images_in_markdown`). -/
def pageResult (p : OCRPage) : Except (List Char) (List Char) :=
  replace_images_in_markdown (mdOf p) (imageData p)

/-- The `for page in ocr_response.pages` loop, accumulating `markdowns`;
an exception from a page's substitution aborts the loop and propagates. -/
def combineLoop (acc : List (List Char)) :
    List OCRPage → Except (List Char) (List (List Char))
  | [] => .ok acc
  | p :: ps =>
    match pageResult p with
    | .error e => .error e
    | .ok md => combineLoop (acc ++ [md]) ps

/-- The per-page results in page order, sequenced left to right with the
first error winning; the loop above computes exactly this. -/
def pageResultsSeq : List OCRPage → Except (List Char) (List (List Char))
  | [] => .ok []
  | p :: ps =>
    match pageResult p with
    | .error e => .error e
    | .ok md =>
      match pageResultsSeq ps with
      | .error e => .error e
      | .ok mds => .ok (md :: mds)

/-- Python `sep.join(xs)`. -/
def joinSep (sep : List Char) : List (List Char) → List Char
  | [] => []
  | [x] => x
  | x :: y :: t => x ++ sep ++ joinSep sep (y :: t)

def blankLine : List Char := "\n\n".toList

/-- `get_combined_markdown_optimized(ocr_response)`. -/
def get_combined_markdown_optimized (ocr_response : OCRResponse) :
    Except (List Char) (List Char) :=
  match combineLoop [] ocr_response.pages with
  | .error e => .error e
  | .ok mds => .ok (joinSep blankLine mds)

/-! ## Document fetcher (`get_data_from_url`) -/

/-- Outcome of the underlying HTTP interaction, as seen by `requests`:
a response with a status code and a body, a `RequestException`
(unreachable host, refused connection, ...), or any other exception. -/
inductive ReqResult where
  | success (status : Nat) (content : List Nat)
  | failure (msg : List Char)
  | otherError (msg : List Char)
deriving DecidableEq

/-- The network seen by one call: how long the server takes to respond
(seconds) and the outcome if the client waits long enough. -/
structure NetBehavior where
  latency : Nat
  outcome : ReqResult
deriving DecidableEq

/-- `requests.get(url, stream=True, timeout=timeoutSec)` : a latency above
the timeout surfaces as a `Timeout`, a subclass of `RequestException`. -/
def requestsGet (timeoutSec : Nat) (net : NetBehavior) : ReqResult :=
  if timeoutSec < net.latency then .failure "timeout".toList else net.outcome

/-- `response.raise_for_status()` raises (returns an error message) for
4xx and 5xx status codes. -/
def raiseForStatus (status : Nat) : Option (List Char) :=
  if 400 ≤ status ∧ status < 600 then some "HTTP error".toList else none

/-- `get_data_from_url(url)` : returns the optional byte content together
with the list of error messages shown via `st.error`.  Exceptions from
`requests.get` / `raise_for_status` are caught, reported, and turn the
result into `None`. -/
def get_data_from_url (net : NetBehavior) :
    Option (List Nat) × List (List Char) :=
  match requestsGet 30 net with
  | .failure m => (none, [m])
  | .otherError m => (none, [m])
  | .success status content =>
    match raiseForStatus status with
    | some m => (none, [m])
    | none => (some content, [])

/-! ## OCR orchestrator (`get_ocr_result`) -/

/-- The uploaded provider artifact (`mistral_uploaded_file`). -/
structure UploadedFile where
  id : List Char
deriving DecidableEq

/-- Provider errors are carried as messages. -/
abbrev PError := List Char

/-- One simulated run of the Mistral provider: the outcome of each of the
client construction, upload, sign and process calls, and of the delete
call issued during cleanup. -/
structure ProviderSim where
  newClient : Except PError Unit
  upload : Except PError UploadedFile
  sign : Except PError (List Char)
  process : Except PError OCRResponse
  deleteResult : Except PError Unit

/-- The `finally` block: when a client exists and an artifact was
uploaded, issue one delete request; an exception from the delete call is
caught and only printed (`except Exception as e: print(...)`), so the
second component (the exception escaping the `finally` block) is `none`
in both cases. -/
def deleteAttempt (p : ProviderSim) (f : UploadedFile) :
    List (List Char) × Option PError :=
  ([f.id],
    match p.deleteResult with
    | .ok _ => none
    | .error _ => none)

/-- `get_ocr_result(api_key, file_data, file_name_stem, is_image)` :
returns the overall outcome together with the list of artifact ids for
which a delete request was issued.  The `try` body re-raises any
exception unchanged; the `finally` block runs on every path, and an
exception escaping a `finally` block would replace the body's outcome. -/
def get_ocr_result (p : ProviderSim) :
    Except PError (List Char) × List (List Char) :=
  match p.newClient with
  | .error e => (.error e, [])
  | .ok _ =>
    match p.upload with
    | .error e => (.error e, [])
    | .ok f =>
      let body : Except PError (List Char) :=
        match p.sign with
        | .error e => .error e
        | .ok _ =>
          match p.process with
          | .error e => .error e
          | .ok resp => get_combined_markdown_optimized resp
      let del := deleteAttempt p f
      (match del.2 with
       | some e => .error e
       | none => body, del.1)

/-! ## Concrete inputs used in the closed theorems below -/

/-- An id that is also a valid pass-through data URI. -/
def cidC1 : List Char := "data:imageQ".toList

/-- A page whose single image id equals its pass-through data URI, so the
substituted text coincides with the unresolved placeholder. -/
def pageC1 : OCRPage :=
  ⟨some "![data:imageQ](data:imageQ)".toList, some [⟨cidC1, some cidC1⟩]⟩

/-- A well-behaved page: one image, benign id, placeholder present. -/
def pageW1 : OCRPage :=
  ⟨some "before ![img-0](img-0) after".toList,
   some [⟨"img-0".toList, some "iVBOR".toList⟩]⟩

/-- An id that itself has the shape of a placeholder. -/
def xid : List Char := "![a](a)".toList

/-- A page whose markdown is a placeholder for `xid` (an id that is not
in the image map), while the mapped id `a` matches inside it. -/
def pageC8 : OCRPage :=
  ⟨some "![![a](a)](![a](a))".toList,
   some [⟨"a".toList, some "QQ==".toList⟩]⟩

/-- Like `pageC8`, with an additional image entry for `xid` itself whose
payload is empty (falsy), so `xid` is omitted from the image map. -/
def pageC10 : OCRPage :=
  ⟨some "![![a](a)](![a](a))".toList,
   some [⟨xid, some []⟩, ⟨"a".toList, some "QQ==".toList⟩]⟩

/-- A page all of whose image payloads are falsy. -/
def pageFalsy : OCRPage :=
  ⟨some "keep ![img-3](img-3) as is".toList,
   some [⟨"img-3".toList, some []⟩, ⟨"img-4".toList, none⟩]⟩

/-- A page whose markdown contains no placeholder for its image ids. -/
def pageNoPH : OCRPage :=
  ⟨some "plain text ![img-5]( other ) end".toList,
   some [⟨"img-5".toList, some "AAAA".toList⟩]⟩

/-- A provider that fails at the process step after a successful upload
(and whose delete call itself fails). -/
def simC3 : ProviderSim :=
  ⟨.ok (), .ok ⟨"file-1".toList⟩, .ok "signed-url".toList,
   .error "processing failed".toList, .error "delete failed".toList⟩

/-- A provider whose upload is rejected. -/
def simC6 : ProviderSim :=
  ⟨.ok (), .error "quota exceeded".toList, .ok "signed-url".toList,
   .ok ⟨[]⟩, .ok ()⟩

/-- A fast, successful network interaction. -/
def netOk : NetBehavior := ⟨2, .success 200 [7, 8, 9]⟩

/-- The combined output of `pageC8` (and of `pageC10`): both placeholder
matches of the mapped id `a` rewritten to its data URI. -/
def outC8 : List Char :=
  "![![a](data:image/png;base64,QQ==)](![a](data:image/png;base64,QQ==))".toList

/-- A placeholder-free page whose image payload contains the invalid
replacement-template escape backslash-q. -/
def pageC9x : OCRPage :=
  ⟨some "no placeholders here".toList,
   some [⟨"img-7".toList, some "\\q".toList⟩]⟩

/-- Two image-free pages, used to exhibit the page join. -/
def pageP1 : OCRPage := ⟨some "p1".toList, none⟩

def pageP2 : OCRPage := ⟨some "p2".toList, none⟩

/-! ## Utility lemmas -/

lemma takeAppLe {α : Type} (n : Nat) (a b : List α) (h : n ≤ a.length) :
    (a ++ b).take n = a.take n := by
  rw [List.take_append_eq_append_take]
  have h0 : n - a.length = 0 := by omega
  simp [h0]

lemma dropAppLe {α : Type} (n : Nat) (a b : List α) (h : n ≤ a.length) :
    (a ++ b).drop n = a.drop n ++ b := by
  rw [List.drop_append_eq_append_drop]
  have h0 : n - a.length = 0 := by omega
  simp [h0]

lemma dropMem {α : Type} (k : Nat) (l : List α) (h : k < l.length) :
    ∃ c t, l.drop k = c :: t ∧ c ∈ l :=
  ⟨l[k], l.drop (k + 1), List.drop_eq_getElem_cons h, List.getElem_mem ..⟩

lemma wsRun_le_length (s : List Char) : wsRun s ≤ s.length := by
  induction s with
  | nil => simp [wsRun]
  | cons c t ih =>
    by_cases h : isPySpace c
    · simp [wsRun, h]; omega
    · simp [wsRun, h]

lemma wsOnly_take (s : List Char) : ∀ k ≤ wsRun s, wsOnly (s.take k) := by
  induction s with
  | nil =>
    intro k hk
    simp [wsRun] at hk
    simp [hk, wsOnly]
  | cons c t ih =>
    intro k hk
    cases k with
    | zero => simp [wsOnly]
    | succ k =>
      by_cases h : isPySpace c
      · rw [wsRun, if_pos h] at hk
        intro d hd
        rcases List.mem_cons.mp (by simpa using hd) with h1 | h1
        · rw [h1]; exact h
        · exact ih k (by omega) d (by simpa using h1)
      · rw [wsRun, if_neg h] at hk
        omega

lemma wsRun_append_cons (w : List Char) (d : Char) (t : List Char)
    (hw : wsOnly w) (hd : isPySpace d = false) :
    wsRun (w ++ d :: t) = w.length := by
  induction w with
  | nil => simp [wsRun, hd]
  | cons c w2 ih =>
    have hc : isPySpace c = true := hw c (by simp)
    rw [List.cons_append, wsRun, if_pos hc,
      ih (fun x hx => hw x (by simp [hx]))]
    simp

lemma mem_descList {k n : Nat} : k ∈ descList n ↔ k ≤ n := by
  induction n with
  | zero => simp [descList]
  | succ n ih => simp [descList, ih]; omega

lemma firstSome_extract {f : Nat → Option Nat} :
    ∀ {l : List Nat} {r : Nat}, firstSome f l = some r → ∃ k ∈ l, f k = some r := by
  intro l
  induction l with
  | nil => intro r h; simp [firstSome] at h
  | cons k t ih =>
    intro r h
    rw [firstSome] at h
    rcases hf : f k with _ | v
    · simp only [hf] at h
      obtain ⟨k2, hk2, hfk⟩ := ih h
      exact ⟨k2, by simp [hk2], hfk⟩
    · simp only [hf] at h
      exact ⟨k, by simp, by rw [hf, h]⟩

lemma firstSome_desc {f : Nat → Option Nat} {n : Nat}
    (h : ∀ k < n, f k = none) : firstSome f (descList n) = f n := by
  induction n with
  | zero =>
    rw [descList, firstSome]
    cases hf : f 0 <;> simp [firstSome]
  | succ n ih =>
    rw [descList, firstSome]
    cases hf : f (n + 1) with
    | some v => rfl
    | none =>
      simp only []
      rw [ih (fun k hk => h k (by omega))]
      exact h n (by omega)

lemma listStartsWith_iff {p : List Char} :
    ∀ {s : List Char}, listStartsWith p s = true ↔ ∃ t, s = p ++ t := by
  induction p with
  | nil => intro s; simp [listStartsWith]
  | cons a as ih =>
    intro s
    cases s with
    | nil => simp [listStartsWith]
    | cons b bs =>
      simp only [listStartsWith, Bool.and_eq_true, decide_eq_true_eq, ih]
      constructor
      · rintro ⟨rfl, t, rfl⟩; exact ⟨t, rfl⟩
      · rintro ⟨t, ht⟩
        injection ht with h1 h2
        exact ⟨h1.symm, t, h2⟩

lemma listStartsWith_self_append (p t : List Char) :
    listStartsWith p (p ++ t) = true :=
  listStartsWith_iff.mpr ⟨t, rfl⟩

lemma containsSub_self_append (p t : List Char) :
    containsSub p (p ++ t) = true := by
  cases p with
  | nil =>
    cases t with
    | nil => rfl
    | cons c r => simp [containsSub, listStartsWith]
  | cons a as =>
    have h1 : listStartsWith (a :: as) ((a :: as) ++ t) = true :=
      listStartsWith_self_append _ _
    simp only [List.cons_append] at h1 ⊢
    simp [containsSub, h1]

lemma containsSub_cons (pat : List Char) (c : Char) (s : List Char)
    (h : containsSub pat s = true) : containsSub pat (c :: s) = true := by
  simp [containsSub, h]

lemma benignChar_spec {c : Char} (h : benignChar c = true) :
    c ≠ '!' ∧ c ≠ '[' ∧ c ≠ ']' ∧ c ≠ '(' ∧ c ≠ ')' ∧ c ≠ '\\' ∧
      isPySpace c = false := by
  simp only [benignChar, Bool.and_eq_true, Bool.not_eq_true', Bool.or_eq_false_iff,
    decide_eq_false_iff_not] at h
  exact ⟨h.1.1.1.1.1.1, h.1.1.1.1.1.2, h.1.1.1.1.2, h.1.1.1.2, h.1.1.2,
    h.1.2, h.2⟩

lemma benign_spec {l : List Char} (h : benign l = true) {c : Char} (hc : c ∈ l) :
    benignChar c = true := by
  rw [benign, List.all_eq_true] at h
  exact h c hc

lemma ws_ne {c d : Char} (h : isPySpace c = true) (hd : isPySpace d = false) :
    c ≠ d := by
  intro he
  rw [he, hd] at h
  cases h

/-! ## Soundness of the matcher: a match yields a valid decomposition -/

lemma phClose_sound {s8 : List Char} {m : Nat} (h : phClose s8 = some m) :
    ∃ w r, wsOnly w ∧ s8 = w ++ (')' :: r) ∧ m = w.length + 1 := by
  obtain ⟨k, hk, hfk⟩ := firstSome_extract h
  rw [mem_descList] at hk
  split at hfk
  case h_2 => cases hfk
  case h_1 c t hd =>
    split at hfk
    case isFalse => cases hfk
    case isTrue hc =>
      injection hfk with hm
      refine ⟨s8.take k, t, wsOnly_take s8 k hk, ?_, ?_⟩
      · conv_lhs => rw [← List.take_append_drop k s8]
        rw [hd, hc]
      · have hlen : k ≤ s8.length := le_trans hk (wsRun_le_length s8)
        rw [List.length_take]
        omega

lemma phAfterOpen_sound {id s6 : List Char} {m : Nat}
    (h : phAfterOpen id s6 = some m) :
    ∃ w t m2, wsOnly w ∧ s6 = w ++ (id ++ t) ∧ phClose t = some m2 ∧
      m = w.length + id.length + m2 := by
  obtain ⟨k, hk, hfk⟩ := firstSome_extract h
  rw [mem_descList] at hk
  split at hfk
  case isFalse => cases hfk
  case isTrue hsw =>
    obtain ⟨t, ht⟩ := listStartsWith_iff.mp hsw
    rw [ht, List.drop_left] at hfk
    rcases Option.map_eq_some'.mp hfk with ⟨m2, hm2, hmm⟩
    refine ⟨s6.take k, t, m2, wsOnly_take s6 k hk, ?_, hm2, ?_⟩
    · conv_lhs => rw [← List.take_append_drop k s6]
      rw [ht]
    · have hlen : k ≤ s6.length := le_trans hk (wsRun_le_length s6)
      rw [List.length_take]
      omega

lemma phAfterAlt_sound {id s4 : List Char} {m : Nat}
    (h : phAfterAlt id s4 = some m) :
    ∃ w t m2, wsOnly w ∧ s4 = w ++ (']' :: '(' :: t) ∧
      phAfterOpen id t = some m2 ∧ m = w.length + 2 + m2 := by
  obtain ⟨k, hk, hfk⟩ := firstSome_extract h
  rw [mem_descList] at hk
  split at hfk
  case h_2 => cases hfk
  case h_1 c1 c2 s6 hd =>
    split at hfk
    case isFalse => cases hfk
    case isTrue hc1 =>
      split at hfk
      case isFalse => cases hfk
      case isTrue hc2 =>
        rcases Option.map_eq_some'.mp hfk with ⟨m2, hm2, hmm⟩
        subst hc1
        subst hc2
        refine ⟨s4.take k, s6, m2, wsOnly_take s4 k hk, ?_, hm2, ?_⟩
        · conv_lhs => rw [← List.take_append_drop k s4]
          rw [hd]
        · have hlen : k ≤ s4.length := le_trans hk (wsRun_le_length s4)
          rw [List.length_take]
          omega

lemma phAlt_sound {id s2 : List Char} {m : Nat} (h : phAlt id s2 = some m) :
    ∃ w t m2, wsOnly w ∧ s2 = w ++ (id ++ t) ∧ phAfterAlt id t = some m2 ∧
      m = w.length + id.length + m2 := by
  obtain ⟨k, hk, hfk⟩ := firstSome_extract h
  rw [mem_descList] at hk
  split at hfk
  case isFalse => cases hfk
  case isTrue hsw =>
    obtain ⟨t, ht⟩ := listStartsWith_iff.mp hsw
    rw [ht, List.drop_left] at hfk
    rcases Option.map_eq_some'.mp hfk with ⟨m2, hm2, hmm⟩
    refine ⟨s2.take k, t, m2, wsOnly_take s2 k hk, ?_, hm2, ?_⟩
    · conv_lhs => rw [← List.take_append_drop k s2]
      rw [ht]
    · have hlen : k ≤ s2.length := le_trans hk (wsRun_le_length s2)
      rw [List.length_take]
      omega

lemma matchPH_sound {id s : List Char} {n : Nat} (h : matchPH id s = some n) :
    validPH id s n := by
  rcases s with _ | ⟨c1, s1⟩
  · cases h
  rcases s1 with _ | ⟨c2, s2⟩
  · cases h
  simp only [matchPH] at h
  split at h
  case isFalse => cases h
  case isTrue hc1 =>
    split at h
    case isFalse => cases h
    case isTrue hc2 =>
      rcases Option.map_eq_some'.mp h with ⟨r, hr, hn⟩
      obtain ⟨w1, t1, m1, hw1, ht1, hm1, hr1⟩ := phAlt_sound hr
      obtain ⟨w2, t2, m2, hw2, ht2, hm2, hr2⟩ := phAfterAlt_sound hm1
      obtain ⟨w3, t3, m3, hw3, ht3, hm3, hr3⟩ := phAfterOpen_sound hm2
      obtain ⟨w4, r4, hw4, ht4, hr4⟩ := phClose_sound hm3
      subst hc1
      subst hc2
      refine ⟨w1, w2, w3, w4, hw1, hw2, hw3, hw4, ?_, ?_, ?_⟩
      · omega
      · have l1 := congrArg List.length ht1
        have l2 := congrArg List.length ht2
        have l3 := congrArg List.length ht3
        have l4 := congrArg List.length ht4
        simp [List.length_append] at l1 l2 l3 l4
        simp [List.length_cons]
        omega
      · have hsplit : ('!' : Char) :: '[' :: s2 =
            ('!' :: '[' ::
              (w1 ++ (id ++ (w2 ++ (']' :: '(' ::
                (w3 ++ (id ++ (w4 ++ [')'])))))))) ++ r4 := by
          rw [ht1, ht2, ht3, ht4]
          simp [List.append_assoc]
        have hlen : ('!' :: '[' ::
            (w1 ++ (id ++ (w2 ++ (']' :: '(' ::
              (w3 ++ (id ++ (w4 ++ [')'])))))))).length = n := by
          simp [List.length_append, List.length_cons]
          omega
        rw [hsplit, ← hlen, List.take_left]

lemma matchPH_pos {id s : List Char} {n : Nat} (h : matchPH id s = some n) :
    1 ≤ n ∧ 1 ≤ s.length := by
  obtain ⟨w1, w2, w3, w4, _, _, _, _, hn, hle, _⟩ := matchPH_sound h
  omega

/-! ## Completeness of the matcher on explicitly decomposed strings -/

lemma phClose_eq (w t : List Char) (hw : wsOnly w) :
    phClose (w ++ (')' :: t)) = some (w.length + 1) := by
  have hrun : wsRun (w ++ ')' :: t) = w.length :=
    wsRun_append_cons w ')' t hw (by decide)
  rw [phClose, hrun, firstSome_desc]
  · rw [List.drop_left]
    simp
  · intro k hk
    obtain ⟨c, t2, hd, hc⟩ := dropMem k w (by omega)
    rw [dropAppLe k w _ (by omega), hd, List.cons_append]
    have hcw : isPySpace c = true := hw c hc
    have hne : c ≠ ')' := ws_ne hcw (show isPySpace ')' = false by decide)
    simp [hne]

lemma phAfterOpen_eq (id : List Char) (w t : List Char) (hbi : benign id = true)
    (hid : id ≠ []) (hw : wsOnly w) :
    phAfterOpen id (w ++ (id ++ t)) =
      (phClose t).map (fun r => w.length + id.length + r) := by
  obtain ⟨d, ds, hhead⟩ := List.exists_cons_of_ne_nil hid
  have hd : isPySpace d = false :=
    (benignChar_spec (benign_spec hbi (by rw [hhead]; simp))).2.2.2.2.2.2
  have hrun : wsRun (w ++ (id ++ t)) = w.length := by
    rw [hhead, List.cons_append]
    exact wsRun_append_cons w d (ds ++ t) hw hd
  rw [phAfterOpen, hrun, firstSome_desc]
  · rw [List.drop_left, if_pos (listStartsWith_self_append id t), List.drop_left]
  · intro k hk
    obtain ⟨c, t2, hdp, hc⟩ := dropMem k w (by omega)
    rw [dropAppLe k w _ (by omega), hdp, List.cons_append]
    have hcw : isPySpace c = true := hw c hc
    have : listStartsWith id (c :: (t2 ++ (id ++ t))) = false := by
      rw [hhead, listStartsWith]
      simp [decide_eq_true_eq, (ws_ne hcw hd).symm]
    rw [if_neg (by simp [this])]

lemma phAfterAlt_eq (id : List Char) (w t : List Char) (hw : wsOnly w) :
    phAfterAlt id (w ++ (']' :: '(' :: t)) =
      (phAfterOpen id t).map (fun r => w.length + 2 + r) := by
  have hrun : wsRun (w ++ ']' :: '(' :: t) = w.length :=
    wsRun_append_cons w ']' ('(' :: t) hw (by decide)
  rw [phAfterAlt, hrun, firstSome_desc]
  · rw [List.drop_left]
    simp
  · intro k hk
    obtain ⟨c, t2, hdp, hc⟩ := dropMem k w (by omega)
    rw [dropAppLe k w _ (by omega), hdp, List.cons_append]
    have hcw : isPySpace c = true := hw c hc
    rcases t2 with _ | ⟨c2, t3⟩
    · simp only [List.nil_append]
      rw [if_neg (ws_ne hcw (by decide))]
    · simp only [List.cons_append]
      rw [if_neg (ws_ne hcw (by decide))]

lemma phAlt_eq (id : List Char) (w t : List Char) (hbi : benign id = true)
    (hid : id ≠ []) (hw : wsOnly w) :
    phAlt id (w ++ (id ++ t)) =
      (phAfterAlt id t).map (fun r => w.length + id.length + r) := by
  obtain ⟨d, ds, hhead⟩ := List.exists_cons_of_ne_nil hid
  have hd : isPySpace d = false :=
    (benignChar_spec (benign_spec hbi (by rw [hhead]; simp))).2.2.2.2.2.2
  have hrun : wsRun (w ++ (id ++ t)) = w.length := by
    rw [hhead, List.cons_append]
    exact wsRun_append_cons w d (ds ++ t) hw hd
  rw [phAlt, hrun, firstSome_desc]
  · rw [List.drop_left, if_pos (listStartsWith_self_append id t), List.drop_left]
  · intro k hk
    obtain ⟨c, t2, hdp, hc⟩ := dropMem k w (by omega)
    rw [dropAppLe k w _ (by omega), hdp, List.cons_append]
    have hcw : isPySpace c = true := hw c hc
    have : listStartsWith id (c :: (t2 ++ (id ++ t))) = false := by
      rw [hhead, listStartsWith]
      simp [decide_eq_true_eq, (ws_ne hcw hd).symm]
    rw [if_neg (by simp [this])]

lemma matchPH_eq (id s2 : List Char) :
    matchPH id ('!' :: '[' :: s2) = (phAlt id s2).map (fun r => 2 + r) := by
  simp [matchPH]

lemma matchPH_complete {id s : List Char} {n : Nat} (hbi : benign id = true)
    (hid : id ≠ []) (hv : validPH id s n) : ∃ m, matchPH id s = some m := by
  obtain ⟨w1, w2, w3, w4, hw1, hw2, hw3, hw4, hn, hle, htake⟩ := hv
  have hs : s = s.take n ++ s.drop n := (List.take_append_drop n s).symm
  rw [htake] at hs
  have hs2 : s = '!' :: '[' ::
      (w1 ++ (id ++ (w2 ++ (']' :: '(' ::
        (w3 ++ (id ++ (w4 ++ (')' :: s.drop n)))))))) := by
    conv_lhs => rw [hs]
    simp [List.append_assoc]
  refine ⟨2 + (w1.length + id.length +
    (w2.length + 2 + (w3.length + id.length + (w4.length + 1)))), ?_⟩
  rw [hs2, matchPH_eq, phAlt_eq _ _ _ hbi hid hw1, phAfterAlt_eq _ _ _ hw2,
    phAfterOpen_eq _ _ _ hbi hid hw3, phClose_eq _ _ hw4]
  rfl

lemma validPH_congr {id s s2 : List Char} {n : Nat} (hv : validPH id s n)
    (hts : s.take n = s2.take n) (hl : n ≤ s2.length) : validPH id s2 n := by
  obtain ⟨w1, w2, w3, w4, hw1, hw2, hw3, hw4, hn, hle, htake⟩ := hv
  exact ⟨w1, w2, w3, w4, hw1, hw2, hw3, hw4, hn, hl, by rw [← hts, htake]⟩

lemma validPH_bang {id s : List Char} {n : Nat} (hbi : benign id = true)
    (hv : validPH id s n) : ∃ m, s.take n = '!' :: m ∧ '!' ∉ m := by
  obtain ⟨w1, w2, w3, w4, hw1, hw2, hw3, hw4, hn, hle, htake⟩ := hv
  refine ⟨_, htake, ?_⟩
  intro hmem
  simp only [List.mem_cons, List.mem_append] at hmem
  rcases hmem with h | h
  · exact absurd h (by decide)
  rcases h with h | h
  · exact absurd (hw1 _ h) (by decide)
  rcases h with h | h
  · exact (benignChar_spec (benign_spec hbi h)).1 rfl
  rcases h with h | h
  · exact absurd (hw2 _ h) (by decide)
  rcases h with h | h
  · exact absurd h (by decide)
  rcases h with h | h
  · exact absurd h (by decide)
  rcases h with h | h
  · exact absurd (hw3 _ h) (by decide)
  rcases h with h | h
  · exact (benignChar_spec (benign_spec hbi h)).1 rfl
  rcases h with h | h
  · exact absurd (hw4 _ h) (by decide)
  · simp at h

lemma mkRepl_tail_no_bang {id u : List Char} (hbi : benign id = true)
    (hbu : benign u = true) :
    ∀ c ∈ ('[' :: (id ++ (']' :: '(' :: (u ++ [')'])))), c ≠ '!' := by
  intro c hc
  simp only [List.mem_cons, List.mem_append] at hc
  rcases hc with rfl | hc
  · decide
  rcases hc with hc | hc
  · exact fun he => (benignChar_spec (benign_spec hbi hc)).1 he
  rcases hc with rfl | hc
  · decide
  rcases hc with rfl | hc
  · decide
  rcases hc with hc | hc
  · exact fun he => (benignChar_spec (benign_spec hbu hc)).1 he
  · simp at hc
    rw [hc]
    decide

lemma matchPH_cons_ne {id : List Char} {c : Char} (hc : c ≠ '!')
    (z : List Char) : matchPH id (c :: z) = none := by
  cases z with
  | nil => rfl
  | cons c2 t => simp [matchPH, hc]

lemma phClose_cons_ne {c : Char} (hc1 : c ≠ ')') (hc2 : isPySpace c = false)
    (z : List Char) : phClose (c :: z) = none := by
  have hrun : wsRun (c :: z) = 0 := by simp [wsRun, hc2]
  rw [phClose, hrun, firstSome_desc (fun k hk => absurd hk (by omega))]
  simp [hc1]

lemma phAfterOpen_none {id u : List Char} (hbi : benign id = true)
    (hbu : benign u = true) (hne : u ≠ id) (t : List Char) :
    phAfterOpen id (u ++ (')' :: t)) = none := by
  have hrun : wsRun (u ++ ')' :: t) = 0 := by
    cases hu : u with
    | nil => simp [wsRun, show isPySpace ')' = false by decide]
    | cons d ds =>
      have hd : isPySpace d = false :=
        (benignChar_spec (benign_spec hbu (by rw [hu]; simp))).2.2.2.2.2.2
      simp [wsRun, hd]
  rw [phAfterOpen, hrun, firstSome_desc (fun k hk => absurd hk (by omega))]
  rw [List.drop_zero]
  by_cases hsw : listStartsWith id (u ++ ')' :: t) = true
  · rw [if_pos hsw]
    obtain ⟨t2, ht2⟩ := listStartsWith_iff.mp hsw
    by_cases hlen : id.length ≤ u.length
    · have hid_take : u.take id.length = id := by
        have h3 := congrArg (List.take id.length) ht2
        rw [takeAppLe _ _ _ hlen] at h3
        rw [h3, takeAppLe _ _ _ (le_refl id.length), List.take_length]
      rcases Nat.lt_or_ge id.length u.length with hlt | hge
      · obtain ⟨c, t3, hdp, hcmem⟩ := dropMem id.length u hlt
        have hcb := benignChar_spec (benign_spec hbu hcmem)
        rw [dropAppLe _ _ _ hlen, hdp, List.cons_append,
          phClose_cons_ne (fun he => hcb.2.2.2.2.1 he) hcb.2.2.2.2.2.2]
        rfl
      · have heq : id.length = u.length := by omega
        have : u = id := by
          rw [← hid_take, heq, List.take_length]
        exact absurd this hne
    · push_neg at hlen
      have hu_take : id.take u.length = u := by
        have h3 := congrArg (List.take u.length) ht2
        rw [takeAppLe _ _ _ (le_refl u.length), List.take_length,
          takeAppLe _ _ _ (by omega)] at h3
        exact h3.symm
      have hid_split : id = u ++ id.drop u.length := by
        conv_lhs => rw [← List.take_append_drop u.length id]
        rw [hu_take]
      obtain ⟨c, t3, hdp, hcmem⟩ := dropMem u.length id hlen
      have hrest : ')' :: t = id.drop u.length ++ t2 := by
        have hcat : u ++ ')' :: t = u ++ (id.drop u.length ++ t2) := by
          rw [← List.append_assoc, ← hid_split]
          exact ht2
        exact List.append_cancel_left hcat
      rw [hdp, List.cons_append] at hrest
      have hcp : c = ')' := by
        injection hrest with h4 h5
        exact h4.symm
      have hcb := benignChar_spec (benign_spec hbi hcmem)
      exact absurd hcp hcb.2.2.2.2.1
  · rw [if_neg hsw]

lemma matchPH_repl_append {id u : List Char} (hbi : benign id = true)
    (hid : id ≠ []) (hbu : benign u = true) (hne : u ≠ id) (t : List Char) :
    matchPH id (mkRepl id u ++ t) = none := by
  have hshape : mkRepl id u ++ t =
      '!' :: '[' :: (id ++ (']' :: '(' :: (u ++ (')' :: t)))) := by
    simp [mkRepl, List.append_assoc]
  have hwnil : wsOnly ([] : List Char) := fun c hc => absurd hc (List.not_mem_nil c)
  rw [hshape, matchPH_eq]
  have h1 := phAlt_eq id [] (']' :: '(' :: (u ++ (')' :: t))) hbi hid hwnil
  simp only [List.nil_append] at h1
  rw [h1]
  have h2 := phAfterAlt_eq id [] (u ++ (')' :: t)) hwnil
  simp only [List.nil_append] at h2
  rw [h2, phAfterOpen_none hbi hbu hne]
  rfl

lemma matchPH_drop_repl {id u : List Char} (hbi : benign id = true)
    (hbu : benign u = true) {j : Nat} (hj1 : 1 ≤ j)
    (hj2 : j < (mkRepl id u).length) (b : List Char) :
    matchPH id ((mkRepl id u).drop j ++ b) = none := by
  obtain ⟨j0, rfl⟩ : ∃ j0, j = j0 + 1 := ⟨j - 1, by omega⟩
  have hdropEq : (mkRepl id u).drop (j0 + 1) =
      ('[' :: (id ++ (']' :: '(' :: (u ++ [')'])))).drop j0 := by
    rw [mkRepl, List.drop_succ_cons]
  have hlt : j0 < ('[' :: (id ++ (']' :: '(' :: (u ++ [')'])))).length := by
    rw [mkRepl] at hj2
    simp only [List.length_cons] at hj2 ⊢
    omega
  obtain ⟨c, t2, hdp, hcmem⟩ := dropMem j0 _ hlt
  rw [hdropEq, hdp, List.cons_append]
  exact matchPH_cons_ne (mkRepl_tail_no_bang hbi hbu c hcmem) _

/-! ## Unfolding equations for `subLit` -/

lemma subLitFuel_nil (id repl : List Char) (f : Nat) :
    subLitFuel id repl f [] = [] := by
  cases f with
  | zero => rfl
  | succ f => rfl

lemma subLitFuel_congr (id repl : List Char) :
    ∀ f g s, s.length ≤ f → s.length ≤ g →
      subLitFuel id repl f s = subLitFuel id repl g s := by
  intro f
  induction f with
  | zero =>
    intro g s hf hg
    have hnil : s = [] := List.length_eq_zero.mp (by omega)
    rw [hnil, subLitFuel_nil, subLitFuel_nil]
  | succ f ih =>
    intro g s hf hg
    cases g with
    | zero =>
      have hnil : s = [] := List.length_eq_zero.mp (by omega)
      rw [hnil, subLitFuel_nil, subLitFuel_nil]
    | succ g =>
      cases hm : matchPH id s with
      | some n =>
        have hpos := matchPH_pos hm
        simp only [subLitFuel, hm]
        rw [ih g (s.drop n) (by simp [List.length_drop]; omega)
          (by simp [List.length_drop]; omega)]
      | none =>
        cases s with
        | nil => rw [subLitFuel_nil, subLitFuel_nil]
        | cons c rest =>
          simp only [subLitFuel, hm]
          rw [ih g rest (by simp at hf; omega) (by simp at hg; omega)]

lemma subLit_nil (id repl : List Char) : subLit id repl [] = [] := rfl

lemma subLit_match {id repl s : List Char} {n : Nat}
    (hm : matchPH id s = some n) :
    subLit id repl s = repl ++ subLit id repl (s.drop n) := by
  have hpos := matchPH_pos hm
  obtain ⟨L, hL⟩ : ∃ L, s.length = L + 1 := ⟨s.length - 1, by omega⟩
  rw [subLit, hL]
  simp only [subLitFuel, hm]
  rw [subLit]
  congr 1
  exact subLitFuel_congr id repl L _ (s.drop n)
    (by simp [List.length_drop]; omega) (by simp)

lemma subLit_nomatch {id repl : List Char} {c : Char} {rest : List Char}
    (hm : matchPH id (c :: rest) = none) :
    subLit id repl (c :: rest) = c :: subLit id repl rest := by
  rw [subLit]
  simp only [List.length_cons, subLitFuel, hm]
  rfl

lemma hasPH_cons (id : List Char) (c : Char) (rest : List Char) :
    hasPH id (c :: rest) = ((matchPH id (c :: rest)).isSome || hasPH id rest) :=
  rfl

lemma hasPH_false_elim {id : List Char} {c : Char} {rest : List Char}
    (h : hasPH id (c :: rest) = false) :
    matchPH id (c :: rest) = none ∧ hasPH id rest = false := by
  rw [hasPH_cons, Bool.or_eq_false_iff] at h
  refine ⟨?_, h.2⟩
  rcases hm : matchPH id (c :: rest) with _ | n
  · rfl
  · rw [hm] at h
    simp at h

lemma subLit_of_no_match {id repl : List Char} :
    ∀ s, hasPH id s = false → subLit id repl s = s := by
  intro s
  induction s with
  | nil => intro h; rfl
  | cons c rest ih =>
    intro h
    obtain ⟨h1, h2⟩ := hasPH_false_elim h
    rw [subLit_nomatch h1, ih h2]

lemma hasPH_append_none {id : List Char} :
    ∀ (a b : List Char), (∀ j < a.length, matchPH id (a.drop j ++ b) = none) →
      hasPH id b = false → hasPH id (a ++ b) = false := by
  intro a
  induction a with
  | nil => intro b h hb; simpa using hb
  | cons x a2 ih =>
    intro b h hb
    rw [List.cons_append, hasPH_cons]
    have h0 : matchPH id (x :: (a2 ++ b)) = none := by
      have h3 := h 0 (by simp)
      simpa using h3
    rw [h0]
    simp only [Option.isSome_none, Bool.false_or]
    refine ih b (fun j hj => ?_) hb
    have h3 := h (j + 1) (by simp only [List.length_cons]; omega)
    simpa using h3

lemma subLit_decomp (id repl : List Char) :
    ∀ s, subLit id repl s = s ∨
      ∃ p n, p < s.length ∧ matchPH id (s.drop p) = some n ∧
        subLit id repl s = s.take p ++ repl ++ subLit id repl ((s.drop p).drop n) := by
  intro s
  induction s with
  | nil => left; rfl
  | cons c rest ih =>
    cases hm : matchPH id (c :: rest) with
    | some n =>
      right
      have hlen := (matchPH_pos hm).2
      exact ⟨0, n, by simp only [List.length_cons]; omega, by simp [hm],
        by simpa using subLit_match hm⟩
    | none =>
      rcases ih with h | ⟨p, n, hp, hmp, heq⟩
      · left
        rw [subLit_nomatch hm, h]
      · right
        refine ⟨p + 1, n, by simp only [List.length_cons]; omega,
          by simpa using hmp, ?_⟩
        rw [subLit_nomatch hm, heq]
        simp [List.take_succ_cons, List.drop_succ_cons]


/-! ## No residual placeholder match after substitution (benign ids) -/

lemma hasPH_subLit_false {id u : List Char} (hbi : benign id = true)
    (hid : id ≠ []) (hbu : benign u = true) (hne : u ≠ id) :
    ∀ s, hasPH id (subLit id (mkRepl id u) s) = false := by
  suffices key : ∀ L s, s.length ≤ L →
      hasPH id (subLit id (mkRepl id u) s) = false by
    intro s
    exact key s.length s (le_refl _)
  intro L
  induction L with
  | zero =>
    intro s hs
    have hnil : s = [] := List.length_eq_zero.mp (by omega)
    rw [hnil, subLit_nil]
    rfl
  | succ L ih =>
    intro s hs
    cases hm : matchPH id s with
    | some n =>
      rw [subLit_match hm]
      have hpos := matchPH_pos hm
      apply hasPH_append_none
      · intro j hj
        cases j with
        | zero =>
          simpa using matchPH_repl_append hbi hid hbu hne _
        | succ j0 =>
          exact matchPH_drop_repl hbi hbu (by omega) hj _
      · exact ih (s.drop n) (by simp [List.length_drop]; omega)
    | none =>
      cases s with
      | nil =>
        rw [subLit_nil]
        rfl
      | cons c rest =>
        rw [subLit_nomatch hm]
        have hrest : hasPH id (subLit id (mkRepl id u) rest) = false :=
          ih rest (by simp only [List.length_cons] at hs; omega)
        rw [hasPH_cons]
        have hnone :
            matchPH id (c :: subLit id (mkRepl id u) rest) = none := by
          cases hv : matchPH id (c :: subLit id (mkRepl id u) rest) with
          | none => rfl
          | some n =>
            exfalso
            have hval := matchPH_sound hv
            have hnpos := matchPH_pos hv
            rcases subLit_decomp id (mkRepl id u) rest with hout | hdec
            · rw [hout] at hv
              rw [hm] at hv
              cases hv
            · obtain ⟨p, n2, hp, hmp, heq⟩ := hdec
              by_cases hcase : n ≤ p + 1
              · have hlenTake : (rest.take p).length = p := by
                  rw [List.length_take]
                  omega
                have htake : (c :: subLit id (mkRepl id u) rest).take n =
                    (c :: rest).take n := by
                  obtain ⟨n0, rfl⟩ : ∃ n0, n = n0 + 1 :=
                    ⟨n - 1, by omega⟩
                  rw [List.take_succ_cons, List.take_succ_cons]
                  congr 1
                  rw [heq, List.append_assoc]
                  rw [takeAppLe n0 (rest.take p) _ (by omega)]
                  rw [List.take_take]
                  congr 1
                  omega
                have hval2 : validPH id (c :: rest) n :=
                  validPH_congr hval htake
                    (by simp only [List.length_cons]; omega)
                obtain ⟨m, hmm2⟩ := matchPH_complete hbi hid hval2
                rw [hm] at hmm2
                cases hmm2
              · push_neg at hcase
                obtain ⟨mm, htk, hni⟩ := validPH_bang hbi hval
                have hlen2 : (rest.take p).length = p := by
                  rw [List.length_take]
                  omega
                have hget :
                    (c :: subLit id (mkRepl id u) rest)[p + 1]? = some '!' := by
                  rw [List.getElem?_cons_succ, heq, List.append_assoc,
                    List.getElem?_append_right (le_of_eq hlen2)]
                  rw [hlen2, Nat.sub_self]
                  rw [mkRepl, List.cons_append, List.getElem?_cons_zero]
                have hget2 : mm[p]? = some '!' := by
                  have h5 : ((c :: subLit id (mkRepl id u) rest).take n)[p + 1]? =
                      some '!' := by
                    rw [List.getElem?_take_of_lt (by omega)]
                    exact hget
                  rw [htk, List.getElem?_cons_succ] at h5
                  exact h5
                exact hni (List.getElem?_mem hget2)
        rw [hnone]
        simp only [Option.isSome_none, Bool.false_or]
        exact hrest

/-! ## The replacement text is inserted whenever the pattern matched -/

lemma containsSub_subLit {id repl : List Char} :
    ∀ s, hasPH id s = true → containsSub repl (subLit id repl s) = true := by
  intro s
  induction s with
  | nil => intro h; exact absurd h (by simp [hasPH])
  | cons c rest ih =>
    intro h
    cases hm : matchPH id (c :: rest) with
    | some n =>
      rw [subLit_match hm]
      exact containsSub_self_append repl _
    | none =>
      rw [subLit_nomatch hm]
      rw [hasPH_cons, hm] at h
      simp only [Option.isSome_none, Bool.false_or] at h
      exact containsSub_cons repl c _ (ih h)

/-! ## Structure of the per-page image map -/

lemma addImage_char (m : List (List Char × List Char)) (img : OCRImage) :
    addImage m img = if truthy img.image_base64 = true then
      dictInsert m img.id (wrapUri (payloadOf img)) else m := by
  rw [addImage, wrapUri]
  by_cases ht : truthy img.image_base64 = true
  · by_cases hsw : listStartsWith dataImagePfx (payloadOf img) = true
    · simp [ht, hsw]
    · simp [ht, hsw]
  · simp [ht]

lemma dictInsert_mem {m : List (List Char × List Char)} {k v : List Char} :
    ∀ {e : List Char × List Char}, e ∈ dictInsert m k v →
      e = (k, v) ∨ e ∈ m := by
  induction m with
  | nil => intro e h; simpa [dictInsert] using h
  | cons a t ih =>
    intro e h
    obtain ⟨k1, v1⟩ := a
    rw [dictInsert] at h
    by_cases hk : k1 = k
    · rw [if_pos hk] at h
      rcases List.mem_cons.mp h with h1 | h1
      · left; exact h1
      · right; exact List.mem_cons_of_mem _ h1
    · rw [if_neg hk] at h
      rcases List.mem_cons.mp h with h1 | h1
      · right; rw [h1]; exact List.mem_cons_self _ _
      · rcases ih h1 with h2 | h2
        · left; exact h2
        · right; exact List.mem_cons_of_mem _ h2

lemma imageData_provenance (p : OCRPage) :
    ∀ e ∈ imageData p, ∃ img ∈ imagesOf p,
      truthy img.image_base64 = true ∧
        e = (img.id, wrapUri (payloadOf img)) := by
  rw [imageData]
  suffices key : ∀ (l : List OCRImage) (m : List (List Char × List Char)) e,
      e ∈ l.foldl addImage m →
      e ∈ m ∨ ∃ img ∈ l, truthy img.image_base64 = true ∧
        e = (img.id, wrapUri (payloadOf img)) by
    intro e he
    rcases key (imagesOf p) [] e he with h | h
    · exact absurd h (List.not_mem_nil e)
    · exact h
  intro l
  induction l with
  | nil => intro m e he; left; simpa using he
  | cons img t ih =>
    intro m e he
    rw [List.foldl_cons] at he
    rcases ih (addImage m img) e he with h | h
    · rw [addImage_char] at h
      by_cases ht : truthy img.image_base64 = true
      · rw [if_pos ht] at h
        rcases dictInsert_mem h with h1 | h1
        · right; exact ⟨img, List.mem_cons_self _ _, ht, h1⟩
        · left; exact h1
      · rw [if_neg ht] at h
        left; exact h
    · right
      obtain ⟨img2, h2, h3⟩ := h
      exact ⟨img2, List.mem_cons_of_mem img h2, h3⟩

lemma imageData_empty (p : OCRPage)
    (h : ∀ img ∈ imagesOf p, truthy img.image_base64 = false) :
    imageData p = [] := by
  rw [imageData]
  suffices key : ∀ l : List OCRImage,
      (∀ img ∈ l, truthy img.image_base64 = false) →
      ∀ m, l.foldl addImage m = m by
    exact key _ h []
  intro l
  induction l with
  | nil => intro h2 m; rfl
  | cons img t ih =>
    intro h2 m
    rw [List.foldl_cons, addImage_char,
      if_neg (by simp [h2 img (List.mem_cons_self _ _)])]
    exact ih (fun i hi => h2 i (List.mem_cons_of_mem img hi)) m


/-! ## An escape-free template parses to its own literals -/

lemma expandTemplate_lits (matched repl : List Char) :
    expandTemplate matched (repl.map TItem.lit) = repl := by
  induction repl with
  | nil => rfl
  | cons c t ih => simp [List.map_cons, expandTemplate, ih]

lemma subPHRun_lit (id repl : List Char) :
    ∀ fuel s, subPHRun id (repl.map TItem.lit) fuel s =
      subLitFuel id repl fuel s := by
  intro fuel
  induction fuel with
  | zero => intro s; rfl
  | succ f ih =>
    intro s
    cases hm : matchPH id s with
    | some n => simp only [subPHRun, subLitFuel, hm, expandTemplate_lits, ih]
    | none =>
      cases s with
      | nil => rfl
      | cons c rest => simp only [subPHRun, subLitFuel, hm, ih]

lemma parseTemplateFuel_no_bs (ngroups : Nat) :
    ∀ repl fuel, repl.length ≤ fuel → ('\\' : Char) ∉ repl →
      parseTemplateFuel ngroups fuel repl = .ok (repl.map TItem.lit) := by
  intro repl
  induction repl with
  | nil =>
    intro fuel _ _
    cases fuel with
    | zero => rfl
    | succ f => rfl
  | cons c t ih =>
    intro fuel hf hb
    obtain ⟨f0, rfl⟩ : ∃ f0, fuel = f0 + 1 :=
      ⟨fuel - 1, by simp only [List.length_cons] at hf; omega⟩
    have hc : ¬(c = '\\') :=
      fun he => hb (by rw [he]; exact List.mem_cons_self _ _)
    rw [parseTemplateFuel, if_neg hc,
      ih f0 (by simp only [List.length_cons] at hf; omega)
        (fun hm => hb (List.mem_cons_of_mem c hm))]
    rfl

lemma parseTemplate_no_bs {repl : List Char} (hb : ('\\' : Char) ∉ repl)
    (ngroups : Nat) : parseTemplate ngroups repl = .ok (repl.map TItem.lit) :=
  parseTemplateFuel_no_bs ngroups repl repl.length (le_refl _) hb

lemma subPH_no_bs {id repl : List Char} (hb : ('\\' : Char) ∉ repl)
    (s : List Char) : subPH id repl s = .ok (subLit id repl s) := by
  rw [subPH, parseTemplate_no_bs hb 0]
  show Except.ok (subPHRun id (repl.map TItem.lit) s.length s) = _
  rw [subPHRun_lit]
  rfl

lemma benign_no_bs {l : List Char} (h : benign l = true) :
    ('\\' : Char) ∉ l :=
  fun hm => (benignChar_spec (benign_spec h hm)).2.2.2.2.2.1 rfl

lemma mkRepl_no_bs {i u : List Char} (hi : ('\\' : Char) ∉ i)
    (hu : ('\\' : Char) ∉ u) : ('\\' : Char) ∉ mkRepl i u := by
  intro h
  simp only [mkRepl, List.mem_cons, List.mem_append] at h
  rcases h with h | h
  · exact absurd h (by decide)
  rcases h with h | h
  · exact absurd h (by decide)
  rcases h with h | h
  · exact hi h
  rcases h with h | h
  · exact absurd h (by decide)
  rcases h with h | h
  · exact absurd h (by decide)
  rcases h with h | h
  · exact hu h
  · simp at h

lemma wrapUri_no_bs {b : List Char} (hb : ('\\' : Char) ∉ b) :
    ('\\' : Char) ∉ wrapUri b := by
  rw [wrapUri]
  by_cases hsw : listStartsWith dataImagePfx b = true
  · rw [if_pos hsw]
    exact hb
  · rw [if_neg hsw]
    intro h
    rcases List.mem_append.mp h with h1 | h1
    · exact absurd h1 (by decide)
    · exact hb h1

/-! ## Substitution returns the markdown unchanged when nothing matches -/

lemma replace_ok_noop (md : List Char) :
    ∀ d : List (List Char × List Char),
      (∀ e ∈ d, ('\\' : Char) ∉ e.1 ∧ ('\\' : Char) ∉ e.2 ∧
        hasPH e.1 md = false) →
      replace_images_in_markdown md d = .ok md := by
  intro d
  induction d with
  | nil => intro h; rfl
  | cons e d2 ih =>
    intro h
    obtain ⟨h1, h2, h3⟩ := h e (List.mem_cons_self _ _)
    have hsub : subPH e.1 (mkRepl e.1 e.2) md = .ok md := by
      rw [subPH_no_bs (mkRepl_no_bs h1 h2) md, subLit_of_no_match md h3]
    rw [replace_images_in_markdown, hsub]
    exact ih (fun x hx => h x (List.mem_cons_of_mem e hx))

lemma pageResult_ok_of_noMatch (p : OCRPage)
    (h : ∀ e ∈ imageData p, ('\\' : Char) ∉ e.1 ∧ ('\\' : Char) ∉ e.2 ∧
      hasPH e.1 (mdOf p) = false) :
    pageResult p = .ok (mdOf p) := by
  rw [pageResult]
  exact replace_ok_noop (mdOf p) (imageData p) h

/-! ## Structure of the page loop -/

lemma combineLoop_seq : ∀ (l : List OCRPage) (acc : List (List Char)),
    combineLoop acc l = (pageResultsSeq l).map (fun mds => acc ++ mds) := by
  intro l
  induction l with
  | nil => intro acc; simp [combineLoop, pageResultsSeq, Except.map]
  | cons p ps ih =>
    intro acc
    rw [combineLoop, pageResultsSeq]
    cases hp : pageResult p with
    | error e => rfl
    | ok md =>
      show combineLoop (acc ++ [md]) ps = _
      rw [ih (acc ++ [md])]
      cases hs : pageResultsSeq ps with
      | error e => rfl
      | ok mds =>
        show Except.ok (acc ++ [md] ++ mds) = _
        simp [Except.map, List.append_assoc]

lemma pageResultsSeq_append :
    ∀ (l1 l2 : List OCRPage) (m1 m2 : List (List Char)),
      pageResultsSeq l1 = .ok m1 → pageResultsSeq l2 = .ok m2 →
      pageResultsSeq (l1 ++ l2) = .ok (m1 ++ m2) := by
  intro l1
  induction l1 with
  | nil =>
    intro l2 m1 m2 h1 h2
    rw [pageResultsSeq] at h1
    injection h1 with h1
    subst h1
    simpa using h2
  | cons p t ih =>
    intro l2 m1 m2 h1 h2
    rw [pageResultsSeq] at h1
    cases hp : pageResult p with
    | error e =>
      rw [hp] at h1
      simp at h1
    | ok md =>
      rw [hp] at h1
      cases hs : pageResultsSeq t with
      | error e =>
        rw [hs] at h1
        simp at h1
      | ok mds =>
        rw [hs] at h1
        simp only [Except.ok.injEq] at h1
        subst h1
        rw [List.cons_append, pageResultsSeq, hp,
          ih l2 mds m2 hs h2]
        rfl

lemma get_combined_eq (pages : List OCRPage) :
    get_combined_markdown_optimized ⟨pages⟩ =
      (pageResultsSeq pages).map (joinSep blankLine) := by
  rw [get_combined_markdown_optimized, combineLoop_seq]
  cases hs : pageResultsSeq pages with
  | error e => rfl
  | ok mds => simp [Except.map]

/-! ## Claim theorems -/

/-- Claim C1, counterexample: in `pageC1` the placeholder id `cidC1` has a
matching image entry on the same page (its pass-through data URI equals the
id itself), the placeholder occurs in the markdown, and the combined output
is exactly the literal unresolved placeholder `![cidC1](cidC1)` —
contradicting the claim that the combined output never contains it. -/
theorem claim_C1_counterexample :
    lookupId cidC1 (imageData pageC1) = some cidC1 ∧
    hasPH cidC1 (mdOf pageC1) = true ∧
    get_combined_markdown_optimized ⟨[pageC1]⟩ = .ok (mkRepl cidC1 cidC1) :=
  ⟨by decide, by decide, rfl⟩

/-- Claim C1, amended: for a page whose image map is a single entry
`(i, u)` where `i` is nonempty, `i` and `u` contain no placeholder
delimiter characters (`!`, `[`, `]`, `(`, `)`), no backslash and no
whitespace — as real OCR ids and base64 data URIs do not — and the data
URI `u` differs from the id `i`: the substitution succeeds, every
occurrence of the placeholder pattern for `i` is replaced — the per-page
output contains `![i](u)` whenever the pattern matched in the markdown —
and the output contains no match of the placeholder pattern for `i`, in
particular not the literal unresolved placeholder `![i](i)`. -/
theorem claim_C1_amended (p : OCRPage) (i u : List Char)
    (hmap : imageData p = [(i, u)]) (hbi : benign i = true) (hid : i ≠ [])
    (hbu : benign u = true) (hne : u ≠ i) :
    ∃ out, pageResult p = .ok out ∧
      (hasPH i (mdOf p) = true → containsSub (mkRepl i u) out = true) ∧
      hasPH i out = false := by
  have hbsi := benign_no_bs hbi
  have hbsu := benign_no_bs hbu
  have hpr : pageResult p = .ok (subLit i (mkRepl i u) (mdOf p)) := by
    rw [pageResult, hmap, replace_images_in_markdown,
      subPH_no_bs (mkRepl_no_bs hbsi hbsu) (mdOf p)]
    rfl
  exact ⟨_, hpr, fun h => containsSub_subLit (mdOf p) h,
    hasPH_subLit_false hbi hid hbu hne (mdOf p)⟩

/-- Witness for `claim_C1_amended` at the concrete page `pageW1`. -/
theorem claim_C1_witness :
    pageResult pageW1 =
      .ok "before ![img-0](data:image/png;base64,iVBOR) after".toList ∧
    containsSub (mkRepl "img-0".toList "data:image/png;base64,iVBOR".toList)
      "before ![img-0](data:image/png;base64,iVBOR) after".toList = true ∧
    hasPH "img-0".toList
      "before ![img-0](data:image/png;base64,iVBOR) after".toList = false := by
  obtain ⟨out, hpr, hc, hh⟩ := claim_C1_amended pageW1 "img-0".toList
    "data:image/png;base64,iVBOR".toList (by decide) (by decide) (by decide)
    (by decide) (by decide)
  have h2 : pageResult pageW1 =
      .ok "before ![img-0](data:image/png;base64,iVBOR) after".toList := rfl
  rw [h2] at hpr
  injection hpr with h3
  subst h3
  exact ⟨h2, hc (by decide), hh⟩

/-- Claim C2: for every image entry with a truthy payload, the data URI
put into the image map is the payload itself when the payload already
starts with `data:image`, and `data:image/png;base64,<payload>`
otherwise. -/
theorem claim_C2_data_uri (m : List (List Char × List Char))
    (img : OCRImage) (b : List Char) (hb : img.image_base64 = some b)
    (hne : b ≠ []) :
    addImage m img = dictInsert m img.id
      (if listStartsWith dataImagePfx b = true then b
       else pngB64Pfx ++ b) := by
  have ht : truthy img.image_base64 = true := by
    rw [hb]
    cases b with
    | nil => exact absurd rfl hne
    | cons c t => rfl
  rw [addImage_char, if_pos ht, wrapUri]
  simp [payloadOf, hb]

/-- Witness for `claim_C2_data_uri`: a plain base64 payload is wrapped
with the PNG data-URI header. -/
theorem claim_C2_witness :
    addImage [] ⟨"img-1".toList, some "QQ==".toList⟩ =
      [("img-1".toList, "data:image/png;base64,QQ==".toList)] := by
  rw [claim_C2_data_uri [] ⟨"img-1".toList, some "QQ==".toList⟩
    "QQ==".toList rfl (by decide)]
  decide

/-- Claim C3: whenever the client is constructed and the upload step
succeeds with artifact `f`, exactly one delete request is issued, for
that artifact, regardless of the outcomes of the sign, process and
delete calls (and of the reassembly). -/
theorem claim_C3_cleanup_once (p : ProviderSim) (f : UploadedFile)
    (h1 : p.newClient = .ok ()) (h2 : p.upload = .ok f) :
    (get_ocr_result p).2 = [f.id] := by
  simp [get_ocr_result, h1, h2, deleteAttempt]

/-- Witness for `claim_C3_cleanup_once`: a provider failing at the
process step (with a failing delete call) still gets exactly one delete
request for the uploaded artifact. -/
theorem claim_C3_witness : (get_ocr_result simC3).2 = ["file-1".toList] :=
  claim_C3_cleanup_once simC3 ⟨"file-1".toList⟩ rfl rfl

/-- Claim C4: the fetcher returns the raw bytes on a fast successful
response; a latency above the 30-second timeout, a request failure, or a
4xx/5xx status each yield no bytes together with a reported error. -/
theorem claim_C4_fetch (net : NetBehavior) :
    (30 < net.latency →
      get_data_from_url net = (none, ["timeout".toList])) ∧
    (∀ m, net.latency ≤ 30 → net.outcome = .failure m →
      get_data_from_url net = (none, [m])) ∧
    (∀ status content, net.latency ≤ 30 →
      net.outcome = .success status content →
      ((400 ≤ status ∧ status < 600) →
        (get_data_from_url net).1 = none ∧
          (get_data_from_url net).2 ≠ []) ∧
      (¬(400 ≤ status ∧ status < 600) →
        get_data_from_url net = (some content, []))) := by
  refine ⟨?_, ?_, ?_⟩
  · intro h
    rw [get_data_from_url, requestsGet, if_pos h]
  · intro m hlat hout
    rw [get_data_from_url, requestsGet, if_neg (by omega), hout]
  · intro status content hlat hout
    constructor
    · intro hst
      rw [get_data_from_url, requestsGet, if_neg (by omega), hout]
      simp [raiseForStatus, hst]
    · intro hst
      rw [get_data_from_url, requestsGet, if_neg (by omega), hout]
      simp [raiseForStatus, hst]

/-- Witness for `claim_C4_fetch`: a 200 response within the timeout
returns its content with no error reported. -/
theorem claim_C4_witness : get_data_from_url netOk = (some [7, 8, 9], []) :=
  ((claim_C4_fetch netOk).2.2 200 [7, 8, 9] (by decide) rfl).2 (by decide)

/-- Claim C5: the outcome of a run never depends on the outcome of the
delete call (a delete failure neither changes a successful result nor
replaces the original exception), and the cleanup step swallows a delete
failure instead of letting it escape. -/
theorem claim_C5_delete_swallowed (p : ProviderSim)
    (d d2 : Except PError Unit) (f : UploadedFile) :
    (get_ocr_result { p with deleteResult := d }).1 =
      (get_ocr_result { p with deleteResult := d2 }).1 ∧
    (deleteAttempt p f).2 = none := by
  constructor
  · obtain ⟨nc, up, sg, pr, del⟩ := p
    cases nc <;> cases up <;> cases sg <;> cases pr <;>
      cases d <;> cases d2 <;>
      simp [get_ocr_result, deleteAttempt]
  · rcases hdel : p.deleteResult with e | u <;> simp [deleteAttempt, hdel]

/-- Claim C6: when the upload step itself fails, no delete request is
issued. -/
theorem claim_C6_no_delete (p : ProviderSim) (e : PError)
    (h : p.upload = .error e) : (get_ocr_result p).2 = [] := by
  rcases hnc : p.newClient with e2 | u
  · simp [get_ocr_result, hnc]
  · simp [get_ocr_result, hnc, h]

/-- Witness for `claim_C6_no_delete` at the provider `simC6` whose
upload is rejected. -/
theorem claim_C6_witness : (get_ocr_result simC6).2 = [] :=
  claim_C6_no_delete simC6 "quota exceeded".toList rfl

/-- Claim C7: combine is order-preserving: the combined outcome is the
sequence of per-page results in input page order (with the first
exception propagating), joined on success by exactly one blank line; in
particular, when the per-page results around and at two adjacent
positions succeed, swapping the two input pages swaps the corresponding
segments of the output. -/
theorem claim_C7_order (l1 l2 : List OCRPage) (a b : OCRPage) :
    (get_combined_markdown_optimized ⟨l1 ++ a :: b :: l2⟩ =
      (pageResultsSeq (l1 ++ a :: b :: l2)).map (joinSep blankLine)) ∧
    (∀ m1 m2 ra rb,
      pageResultsSeq l1 = .ok m1 → pageResultsSeq l2 = .ok m2 →
      pageResult a = .ok ra → pageResult b = .ok rb →
      get_combined_markdown_optimized ⟨l1 ++ a :: b :: l2⟩ =
        .ok (joinSep blankLine (m1 ++ ra :: rb :: m2)) ∧
      get_combined_markdown_optimized ⟨l1 ++ b :: a :: l2⟩ =
        .ok (joinSep blankLine (m1 ++ rb :: ra :: m2))) := by
  refine ⟨get_combined_eq _, ?_⟩
  intro m1 m2 ra rb h1 h2 ha hb2
  have hseq1 : pageResultsSeq (a :: b :: l2) = .ok (ra :: rb :: m2) := by
    rw [pageResultsSeq, ha, pageResultsSeq, hb2, h2]
  have hseq2 : pageResultsSeq (b :: a :: l2) = .ok (rb :: ra :: m2) := by
    rw [pageResultsSeq, hb2, pageResultsSeq, ha, h2]
  constructor
  · rw [get_combined_eq, pageResultsSeq_append l1 _ m1 _ h1 hseq1]
    rfl
  · rw [get_combined_eq, pageResultsSeq_append l1 _ m1 _ h1 hseq2]
    rfl

/-- Witness for `claim_C7_order` at two concrete image-free pages. -/
theorem claim_C7_witness :
    get_combined_markdown_optimized ⟨[pageP1, pageP2]⟩ =
      .ok (joinSep blankLine ["p1".toList, "p2".toList]) :=
  ((claim_C7_order [] [] pageP1 pageP2).2 [] [] "p1".toList "p2".toList
    rfl rfl rfl rfl).1

/-- Claim C8, counterexample: in `pageC8` the id `xid = "![a](a)"` is not
in the image map and its placeholder is present in the markdown, yet the
output does not contain the original placeholder any more — the
substitution for the mapped id `a` rewrote its interior. -/
theorem claim_C8_counterexample :
    lookupId xid (imageData pageC8) = none ∧
    containsSub (mkRepl xid xid) (mdOf pageC8) = true ∧
    pageResult pageC8 = .ok outC8 ∧
    containsSub (mkRepl xid xid) outC8 = false :=
  ⟨by decide, by decide, rfl, by decide⟩

/-- Claim C8, amended: substitution is only ever performed for ids in the
image map, so when no mapped id's placeholder pattern matches anywhere in
the page markdown and no mapped id or data URI contains a backslash (a
backslash could make Python's template parser raise `re.error`), the page
markdown — and with it any placeholder of an unmapped id `x` — is
returned exactly as the original, and no error is raised. -/
theorem claim_C8_amended (p : OCRPage) (x : List Char)
    (_hx : lookupId x (imageData p) = none)
    (hbs : ∀ e ∈ imageData p, ('\\' : Char) ∉ e.1 ∧ ('\\' : Char) ∉ e.2)
    (h : ∀ e ∈ imageData p, hasPH e.1 (mdOf p) = false) :
    pageResult p = .ok (mdOf p) :=
  pageResult_ok_of_noMatch p
    (fun e he => ⟨(hbs e he).1, (hbs e he).2, h e he⟩)

/-- Witness for `claim_C8_amended` at `pageNoPH` with unmapped id
`img-9`. -/
theorem claim_C8_witness : pageResult pageNoPH = .ok (mdOf pageNoPH) :=
  claim_C8_amended pageNoPH "img-9".toList (by decide) (by decide) (by decide)

/-- Claim C9, counterexample: `pageC9x` has no placeholder match for its
single image id, yet combining raises `re.error` ("bad escape") instead
of returning the markdown unchanged: the image's truthy payload contains
the invalid template escape backslash-q, and Python parses the
replacement template before looking for matches. -/
theorem claim_C9_counterexample :
    hasPH "img-7".toList (mdOf pageC9x) = false ∧
    truthy (some "\\q".toList) = true ∧
    get_combined_markdown_optimized ⟨[pageC9x]⟩ =
      .error "bad escape".toList :=
  ⟨by decide, by decide, rfl⟩

/-- Claim C9, amended: a page whose markdown contains no placeholder
match for any of its image ids, and whose image ids and payloads contain
no backslash (so that no replacement template can raise `re.error`),
contributes its markdown unchanged: the per-page result is the markdown,
and combining the single page returns the markdown itself. -/
theorem claim_C9_no_placeholder (p : OCRPage)
    (hbs : ∀ img ∈ imagesOf p, ('\\' : Char) ∉ img.id ∧
      ('\\' : Char) ∉ payloadOf img)
    (h : ∀ img ∈ imagesOf p, hasPH img.id (mdOf p) = false) :
    pageResult p = .ok (mdOf p) ∧
    get_combined_markdown_optimized ⟨[p]⟩ = .ok (mdOf p) := by
  have hp : pageResult p = .ok (mdOf p) := by
    apply pageResult_ok_of_noMatch
    intro e he
    obtain ⟨img, himg, ht, heq⟩ := imageData_provenance p e he
    rw [heq]
    exact ⟨(hbs img himg).1, wrapUri_no_bs (hbs img himg).2, h img himg⟩
  refine ⟨hp, ?_⟩
  rw [get_combined_eq [p], pageResultsSeq, hp, pageResultsSeq]
  rfl

/-- Witness for `claim_C9_no_placeholder` at `pageNoPH`. -/
theorem claim_C9_witness :
    pageResult pageNoPH = .ok (mdOf pageNoPH) ∧
    get_combined_markdown_optimized ⟨[pageNoPH]⟩ = .ok (mdOf pageNoPH) :=
  claim_C9_no_placeholder pageNoPH (by decide) (by decide)

/-- Claim C10, counterexample: in `pageC10` the image entry for `xid` has
an empty (falsy) payload and is omitted from the image map, and the
placeholder for `xid` occurs in the markdown; but it does not remain in
the output — the substitution for the truthy id `a` rewrote it. -/
theorem claim_C10_counterexample :
    truthy (some ([] : List Char)) = false ∧
    lookupId xid (imageData pageC10) = none ∧
    hasPH xid (mdOf pageC10) = true ∧
    pageResult pageC10 = .ok outC8 ∧
    hasPH xid outC8 = false :=
  ⟨by decide, by decide, by decide, rfl, by decide⟩

/-- Claim C10, amended: every entry of the image map comes from an image
with a truthy payload (missing or empty payloads are omitted, so no
placeholder is ever rewritten to an empty or malformed data URI), and a
page all of whose payloads are falsy gets an empty map and keeps its
markdown — placeholders included — verbatim.  A placeholder of an
omitted id can still be rewritten by another, truthy, id's
substitution. -/
theorem claim_C10_amended (p q : OCRPage)
    (hp : ∀ img ∈ imagesOf p, truthy img.image_base64 = false) :
    (∀ e ∈ imageData q, ∃ img ∈ imagesOf q,
      truthy img.image_base64 = true ∧
        e = (img.id, wrapUri (payloadOf img))) ∧
    imageData p = [] ∧ pageResult p = .ok (mdOf p) := by
  refine ⟨imageData_provenance q, imageData_empty p hp, ?_⟩
  rw [pageResult, imageData_empty p hp]
  rfl

/-- Witness for `claim_C10_amended` at the all-falsy page `pageFalsy`. -/
theorem claim_C10_witness :
    imageData pageFalsy = [] ∧
    pageResult pageFalsy = .ok (mdOf pageFalsy) := by
  have h := claim_C10_amended pageFalsy pageW1 (by decide)
  exact ⟨h.2.1, h.2.2⟩
